import Mathlib

/-!
# Mentor Match — availability matching engine, shallow embedding

This file embeds the matching engine of the mentor-match repository
(`src/server/index.js`, together with the week-key utilities of
`src/client/src/utils/weekUtils.ts`) and proves the specified properties of
it.

Representation choices (all order-isomorphic / injective images of the
JavaScript values, so every comparison made by the code is preserved):

* Clock times.  The code stores times as "HH:MM" strings and converts them
  with the helpers `timeToMinutes` / `minutesToTime` (`index.js` lines
  571-583) before any arithmetic; `minutesToTime` is injective, and the only
  operations ever applied to the string forms are equality tests (the dedup
  key) and reconversion.  We therefore represent a time by its
  minutes-since-midnight value, a `Nat`.
* Week keys.  The code stores week keys as "YYYY-MM-DD" strings and compares
  them with SQL `>=` / `=` (byte-wise lexicographic order, which on such
  strings is exactly chronological order).  We represent a week key by the
  day number of the anchoring date (days since the epoch), a `Nat`; `≤` on
  day numbers matches the string comparison.
* Dates.  `getCurrentWeekKey` / `getWeekKey` do calendar arithmetic with
  JavaScript `Date`.  We represent a calendar date by its day count since
  1970-01-01 (an `Int`, so that the week-anchor subtraction needs no
  truncation); 1970-01-01 was a Thursday, so the JavaScript `getDay` (0 =
  Sunday) is `(n + 4) % 7`.
-/

/-- A stored availability row (`availability` table): owner, day of week
(0 = Sunday … 6 = Saturday), start/end in minutes since midnight, week key. -/
structure AvailRow where
  userId : String
  dayOfWeek : Nat
  startTime : Nat
  endTime : Nat
  weekKey : Nat
deriving DecidableEq, Repr

/-- A row of the opposite-type availability query (`index.js` lines 450-456):
an availability row joined with the email of the owning user
(`SELECT a.*, u.email, u.user_type, u.id as user_id`). -/
structure OtherRow where
  slot : AvailRow
  email : String
deriving DecidableEq, Repr

/-- The value returned by `findTimeOverlap` when the intervals intersect. -/
structure Overlap where
  startTime : Nat
  endTime : Nat
  duration : Nat
deriving DecidableEq, Repr

/-- A match candidate as pushed by the matching loop (`index.js` lines
524-533, mentor branch; the mentee branch at lines 495-505 additionally
carries the ability tags of the mentor, and is otherwise identical). -/
structure MatchC where
  partnerId : String
  partnerEmail : String
  dayOfWeek : Nat
  startTime : Nat
  endTime : Nat
  duration : Nat
  weekKey : Nat
deriving DecidableEq, Repr

/-- `findTimeOverlap` (`index.js` lines 551-569): intersection of the two
minute intervals, returned only when non-empty. -/
def findTimeOverlap (slot1 slot2 : AvailRow) : Option Overlap :=
  let start1 := slot1.startTime
  let end1 := slot1.endTime
  let start2 := slot2.startTime
  let end2 := slot2.endTime
  let overlapStart := max start1 start2
  let overlapEnd := min end1 end2
  if overlapStart < overlapEnd then
    some ⟨overlapStart, overlapEnd, overlapEnd - overlapStart⟩
  else
    none

/-- Body of the matching double loop (`index.js` lines 519-537): a pair of
slots yields a candidate when day and week agree and the overlap lasts at
least 30 minutes. -/
def mkMatch (userSlot : AvailRow) (otherSlot : OtherRow) : Option MatchC :=
  if userSlot.dayOfWeek = otherSlot.slot.dayOfWeek ∧
      userSlot.weekKey = otherSlot.slot.weekKey then
    match findTimeOverlap userSlot otherSlot.slot with
    | some overlap =>
        if 30 ≤ overlap.duration then
          some { partnerId := otherSlot.slot.userId
                 partnerEmail := otherSlot.email
                 dayOfWeek := userSlot.dayOfWeek
                 startTime := overlap.startTime
                 endTime := overlap.endTime
                 duration := overlap.duration
                 weekKey := userSlot.weekKey }
        else none
    | none => none
  else none

/-- The full `userAvailability.forEach … otherAvailability.forEach` double
loop (`index.js` lines 518-538): candidates in loop order. -/
def rawMatches (userAvailability : List AvailRow)
    (otherAvailability : List OtherRow) : List MatchC :=
  userAvailability.flatMap fun userSlot =>
    otherAvailability.filterMap fun otherSlot => mkMatch userSlot otherSlot

/-- The dedup key of `distributeMatches` (`index.js` line 591):
the string key is built as day, start and end joined with dashes, and the
rendering of each part is injective, so the key is faithfully the triple. -/
def mKey (m : MatchC) : Nat × Nat × Nat := (m.dayOfWeek, m.startTime, m.endTime)

/-- The dedup pass of `distributeMatches` (`index.js` lines 588-598): keep a
candidate only when its key was not seen before, threading the seen set. -/
def dedupGo (seen : List (Nat × Nat × Nat)) : List MatchC → List MatchC
  | [] => []
  | m :: rest =>
    if mKey m ∈ seen then dedupGo seen rest
    else m :: dedupGo (mKey m :: seen) rest

/-- `uniqueMatches` as computed by `distributeMatches`. -/
def dedupMatches (ms : List MatchC) : List MatchC := dedupGo [] ms

/-- Total number of candidates still held in the day-group state. -/
def groupSum (gs : List (Nat × List MatchC)) : Nat :=
  (gs.map (fun p => p.2.length)).sum

/-- The `while` loop of `distributeMatches` (`index.js` lines 604-625),
transliterated with explicit fuel (the loop terminates, and
`distributeMatches` below supplies visibly sufficient fuel).  `gs` is the
`dayGroups` object as an association list in the key enumeration order;
`days[dayIndex % days.length]` is the entry at that position.  Each
iteration re-checks the loop condition, possibly shifts the group of the
current day onto the result, and then applies the all-groups-empty break. -/
def dLoop : Nat → Nat → Nat → List (Nat × List MatchC) → Nat → List MatchC →
    List MatchC
  | 0, _, _, _, _, acc => acc
  | fuel + 1, limit, total, gs, dayIndex, acc =>
    if acc.length < limit ∧ acc.length < total then
      match gs.get? (dayIndex % gs.length) with
      | some (d, g) =>
        match g with
        | [] =>
          if gs.all (fun p => p.2.isEmpty) then acc
          else dLoop fuel limit total gs (dayIndex + 1) acc
        | h :: t =>
          if (gs.set (dayIndex % gs.length) (d, t)).all (fun p => p.2.isEmpty) then
            acc ++ [h]
          else
            dLoop fuel limit total (gs.set (dayIndex % gs.length) (d, t))
              (dayIndex + 1) (acc ++ [h])
      | none => acc
    else acc

/-- `distributeMatches` (`index.js` lines 585-629).  Lists of at most
`limit` candidates are returned unchanged; otherwise the candidates are
deduplicated by `mKey`, grouped by day, and consumed round-robin.  The
`days` array is `Object.keys(dayGroups)`: the keys are numeric strings
(array indices), which JavaScript enumerates in ascending numeric order,
so the groups are cycled in ascending `dayOfWeek` order.  Each group lists
the unique candidates of its day in first-seen order. -/
def distributeMatches (ms : List MatchC) (limit : Nat) : List MatchC :=
  if ms.length ≤ limit then ms
  else
    let uniqueMatches := dedupMatches ms
    let days := List.insertionSort (· ≤ ·)
      ((uniqueMatches.map (fun m => m.dayOfWeek)).dedup)
    let dayGroups := days.map fun d =>
      (d, uniqueMatches.filter (fun m => m.dayOfWeek = d))
    dLoop (uniqueMatches.length * days.length + days.length + 1) limit
      uniqueMatches.length dayGroups 0 []

/-- Round-robin interleaving of a list of groups, described independently of
the loop: each round takes the head of every non-empty group, in group
order, until all groups are exhausted.  The fuel argument is structural
bookkeeping; `roundRobin` supplies the total element count, which always
suffices. -/
def rrRounds : Nat → List (List MatchC) → List MatchC
  | 0, _ => []
  | n + 1, gss =>
    if gss.all List.isEmpty then []
    else gss.filterMap List.head? ++ rrRounds n (gss.map List.tail)

/-- One candidate per group per pass, cycling until exhaustion. -/
def roundRobin (gss : List (List MatchC)) : List MatchC :=
  rrRounds ((gss.map List.length).sum) gss

/-- The distinct days of a candidate list in first-occurrence (insertion)
order.  This is the day-group order asserted by the round-robin sentence
of the specification; `distributeMatches` itself enumerates days in
ascending numeric order instead. -/
def insertionOrderDays (seen : List Nat) : List MatchC → List Nat
  | [] => []
  | m :: rest =>
    if m.dayOfWeek ∈ seen then insertionOrderDays seen rest
    else m.dayOfWeek :: insertionOrderDays (m.dayOfWeek :: seen) rest

/-- The reducer as the specification words it: round-robin over day groups
in day-group insertion (first-seen) order, one per day per pass, stopping
at `limit`.  Stated for comparison with `distributeMatches`. -/
def specInsertionOrderReducer (ms : List MatchC) (limit : Nat) :
    List MatchC :=
  if ms.length ≤ limit then ms
  else
    let uniq := dedupMatches ms
    let days := insertionOrderDays [] uniq
    List.take limit
      (roundRobin (days.map fun d => uniq.filter (fun m => m.dayOfWeek = d)))

/-- The JavaScript `Date.prototype.getDay` (0 = Sunday … 6 = Saturday) for a
date given as its day count since 1970-01-01, which was a Thursday. -/
def jsGetDay (n : Int) : Int := (n + 4) % 7

/-- The server `getCurrentWeekKey` (`index.js` lines 103-108):
`startOfWeek.setDate(now.getDate() - now.getDay())`, i.e. the date moved
back by its day-of-week number, then rendered as a date string. -/
def getCurrentWeekKey (today : Int) : Int := today - jsGetDay today

/-- The client `getWeekKey` (`weekUtils.ts` lines 4-10):
`diff = getDate() - day + (day === 0 ? -6 : 1)`. -/
def getWeekKey (date : Int) : Int :=
  let day := jsGetDay date
  date - day + (if day = 0 then -6 else 1)

/-- The Monday anchoring the Monday-to-Sunday calendar week that contains
`n` (the week-key anchor named by the specification).  The number of days
since the most recent Monday is `(jsGetDay n + 6) % 7 = (n + 3) % 7`. -/
def mondayOf (n : Int) : Int := n - (n + 3) % 7

/-- The error of the matching engine: the requesting user record is absent. -/
inductive MatchError where
  | userNotFound
deriving DecidableEq, Repr

/-- A stored user row (`users` table); `id` is the primary key. -/
structure UserRow where
  id : String
  email : String
  userType : String
deriving DecidableEq, Repr

/-- The stored rows the engine reads. -/
structure DB where
  users : List UserRow
  availability : List AvailRow
deriving Repr

/-- The `/api/find-matches` engine (`index.js` lines 436-546), from the user
lookup on (the request validation of the express layer precedes it).  The
database reads are modelled as pure list queries in row order:

* user lookup: `SELECT * FROM users WHERE id = ?`;
* own slots: `SELECT * FROM availability WHERE user_id = ? AND week_key >= ?`;
* opposite slots: availability joined with users on `a.user_id = u.id`
  (resolved by `find?` since `users.id` is the primary key) filtered by
  `u.user_type = ? AND a.week_key >= ?`.

Both branches (mentor requester / mentee requester) build the same
candidates and apply `distributeMatches … 5`; the mentee branch only adds
ability annotations. -/
def findMatches (db : DB) (userId : String) (currentWeekKey : Nat) :
    Except MatchError (List MatchC) :=
  match db.users.find? (fun u => u.id = userId) with
  | none => .error .userNotFound
  | some user =>
    let oppositeType := if user.userType = "mentor" then "mentee" else "mentor"
    let userAvailability := db.availability.filter
      (fun a => a.userId = userId ∧ currentWeekKey ≤ a.weekKey)
    let otherAvailability := db.availability.filterMap fun a =>
      match db.users.find? (fun u => u.id = a.userId) with
      | some u =>
          if u.userType = oppositeType ∧ currentWeekKey ≤ a.weekKey then
            some ⟨a, u.email⟩
          else none
      | none => none
    .ok (distributeMatches (rawMatches userAvailability otherAvailability) 5)

/-- Mid-pass remainder of the round-robin loop: with the cursor standing at
the first entry of `rest` (the entries of `pre` having already been visited
in the current pass), the loop will still emit the heads of the non-empty
groups of `rest`, and then round-robin over the state reached when the pass
completes. -/
def midEmit (pre rest : List (Nat × List MatchC)) : List MatchC :=
  rest.filterMap (fun p => p.2.head?) ++
    roundRobin ((pre ++ rest.map (fun p => (p.1, p.2.tail))).map (fun p => p.2))

/-- Concrete counterexample input: six candidates with pairwise distinct
windows, the day-3 windows entered before the day-1 windows. -/
def cexDay31 : List MatchC :=
  [⟨"p", "e", 3, 540, 600, 60, 100⟩, ⟨"p", "e", 3, 600, 660, 60, 100⟩,
   ⟨"p", "e", 3, 660, 720, 60, 100⟩, ⟨"p", "e", 1, 540, 600, 60, 100⟩,
   ⟨"p", "e", 1, 600, 660, 60, 100⟩, ⟨"p", "e", 1, 660, 720, 60, 100⟩]

/-- Concrete database: one mentor with a Monday 09:00-10:00 slot, one mentee
with a Monday 09:30-10:30 slot, both in week 100. -/
def dbPair : DB :=
  { users := [⟨"a", "a@x", "mentor"⟩, ⟨"b", "b@x", "mentee"⟩]
    availability := [⟨"a", 1, 540, 600, 100⟩, ⟨"b", 1, 570, 630, 100⟩] }

/-- The single match produced for `dbPair`. -/
def cPair : MatchC := ⟨"b", "b@x", 1, 570, 600, 30, 100⟩

/-- Concrete database with no overlap of at least 30 minutes. -/
def dbShort : DB :=
  { users := [⟨"a", "a@x", "mentor"⟩, ⟨"b", "b@x", "mentee"⟩]
    availability := [⟨"a", 1, 540, 555, 100⟩, ⟨"b", 1, 550, 565, 100⟩] }

/-- Six candidates on six distinct days, used to exercise the exact-five
behaviour of the reducer. -/
def sixDayMatches : List MatchC :=
  [⟨"p", "e", 0, 540, 600, 60, 100⟩, ⟨"p", "e", 1, 540, 600, 60, 100⟩,
   ⟨"p", "e", 2, 540, 600, 60, 100⟩, ⟨"p", "e", 3, 540, 600, 60, 100⟩,
   ⟨"p", "e", 4, 540, 600, 60, 100⟩, ⟨"p", "e", 5, 540, 600, 60, 100⟩]

lemma mkMatch_norm (u : AvailRow) (o : OtherRow) :
    mkMatch u o =
      if u.dayOfWeek = o.slot.dayOfWeek ∧ u.weekKey = o.slot.weekKey ∧
         max u.startTime o.slot.startTime < min u.endTime o.slot.endTime ∧
         30 ≤ min u.endTime o.slot.endTime - max u.startTime o.slot.startTime then
        some ⟨o.slot.userId, o.email, u.dayOfWeek,
              max u.startTime o.slot.startTime, min u.endTime o.slot.endTime,
              min u.endTime o.slot.endTime - max u.startTime o.slot.startTime,
              u.weekKey⟩
      else none := by
  unfold mkMatch findTimeOverlap
  by_cases h1 : u.dayOfWeek = o.slot.dayOfWeek ∧ u.weekKey = o.slot.weekKey
  · rw [if_pos h1]
    by_cases h2 : max u.startTime o.slot.startTime < min u.endTime o.slot.endTime
    · by_cases h3 : 30 ≤ min u.endTime o.slot.endTime - max u.startTime o.slot.startTime
      · simp only [if_pos h2, if_pos h3]
        rw [if_pos]
        exact ⟨h1.1, h1.2, h2, h3⟩
      · simp only [if_pos h2, if_neg h3]
        rw [if_neg]
        exact fun hc => h3 hc.2.2.2
    · simp only [if_neg h2]
      rw [if_neg]
      exact fun hc => h2 hc.2.2.1
  · rw [if_neg h1, if_neg]
    exact fun hc => h1 ⟨hc.1, hc.2.1⟩

/-- C1: for two slots on the same day and week, the matching loop emits a
candidate if and only if min(end1, end2) - max(start1, start2) is at least
30 minutes, and the emitted candidate has window [max(start1, start2),
min(end1, end2)) with duration equal to that difference. -/
theorem overlap_emission (u : AvailRow) (o : OtherRow)
    (hday : u.dayOfWeek = o.slot.dayOfWeek) (hweek : u.weekKey = o.slot.weekKey) :
    ((∃ c, mkMatch u o = some c) ↔
      30 ≤ min u.endTime o.slot.endTime - max u.startTime o.slot.startTime) ∧
    (∀ c, mkMatch u o = some c →
      c.startTime = max u.startTime o.slot.startTime ∧
      c.endTime = min u.endTime o.slot.endTime ∧
      c.duration = min u.endTime o.slot.endTime - max u.startTime o.slot.startTime) := by
  rw [mkMatch_norm]  -- hmm inside ∃/∀ contexts: rw rewrites everywhere
  constructor
  · constructor
    · rintro ⟨c, hc⟩
      split at hc
      · next h => exact h.2.2.2
      · exact absurd hc (by simp)
    · intro h30
      have hlt : max u.startTime o.slot.startTime < min u.endTime o.slot.endTime := by omega
      exact ⟨⟨o.slot.userId, o.email, u.dayOfWeek,
              max u.startTime o.slot.startTime, min u.endTime o.slot.endTime,
              min u.endTime o.slot.endTime - max u.startTime o.slot.startTime,
              u.weekKey⟩, by rw [if_pos ⟨hday, hweek, hlt, h30⟩]⟩
  · intro c hc
    split at hc
    · cases hc
      exact ⟨rfl, rfl, rfl⟩
    · exact absurd hc (by simp)

theorem overlap_emission_witness :
    ∃ c, mkMatch ⟨"u", 1, 540, 600, 100⟩ ⟨⟨"v", 1, 570, 630, 100⟩, "v@x"⟩ = some c :=
  (overlap_emission ⟨"u", 1, 540, 600, 100⟩ ⟨⟨"v", 1, 570, 630, 100⟩, "v@x"⟩ rfl rfl).1.mpr
    (by decide)

/-- C8: the claim says the computed current week key is the Monday
anchoring the calendar week of the date.  The client getWeekKey indeed returns
that Monday for every date, but the server getCurrentWeekKey returns the
Sunday date - getDay(date), which is never the Monday anchor; at the
concrete failing input, day 4 of the epoch (1970-01-05, a Monday), the
server yields day 3 (Sunday 1970-01-04) instead of day 4 itself. -/
theorem weekKey_anchor :
    (∀ n : Int, getWeekKey n = mondayOf n) ∧
    (∀ n : Int, getCurrentWeekKey n ≠ mondayOf n) ∧
    getCurrentWeekKey 4 = 3 ∧ mondayOf 4 = 4 ∧ getWeekKey 4 = 4 := by
  refine ⟨fun n => ?_, fun n => ?_, by decide, by decide, by decide⟩
  · simp only [getWeekKey, jsGetDay, mondayOf]
    split <;> omega
  · simp only [getCurrentWeekKey, jsGetDay, mondayOf]
    omega

/-- C9: whenever the raw candidate list has at most five entries,
distributeMatches returns it unchanged, duplicates included. -/
theorem distributeMatches_short_id (ms : List MatchC) (h : ms.length ≤ 5) :
    distributeMatches ms 5 = ms := by
  simp [distributeMatches, h]

theorem distributeMatches_short_id_witness :
    (([⟨"p", "e", 1, 540, 600, 60, 100⟩, ⟨"q", "f", 1, 540, 600, 60, 100⟩] :
        List MatchC).length ≤ 5) ∧
    distributeMatches
        [⟨"p", "e", 1, 540, 600, 60, 100⟩, ⟨"q", "f", 1, 540, 600, 60, 100⟩] 5 =
      [⟨"p", "e", 1, 540, 600, 60, 100⟩, ⟨"q", "f", 1, 540, 600, 60, 100⟩] :=
  ⟨by decide, distributeMatches_short_id _ (by decide)⟩

/-- C5 counterexample: two identical 15-minute slots on the same day and
week yield no candidate, contradicting the claim that identical slots on
the same day and week always yield a full-duration match. -/
theorem identical_short_slots_cex :
    mkMatch ⟨"u", 2, 540, 555, 100⟩ ⟨⟨"v", 2, 540, 555, 100⟩, "v@x"⟩ = none := by
  decide

/-- C5 amended: slots differing in day or week never produce a candidate,
and two identical slots on the same day and week whose duration is at
least 30 minutes yield a full-duration match. -/
theorem dayWeek_guard (u : AvailRow) (o : OtherRow) :
    ((u.dayOfWeek ≠ o.slot.dayOfWeek ∨ u.weekKey ≠ o.slot.weekKey) →
      mkMatch u o = none) ∧
    (u.dayOfWeek = o.slot.dayOfWeek → u.weekKey = o.slot.weekKey →
      u.startTime = o.slot.startTime → u.endTime = o.slot.endTime →
      30 ≤ u.endTime - u.startTime →
      mkMatch u o =
        some ⟨o.slot.userId, o.email, u.dayOfWeek, u.startTime, u.endTime,
              u.endTime - u.startTime, u.weekKey⟩) := by
  constructor
  · rintro (h | h)
    · rw [mkMatch_norm, if_neg]
      exact fun hc => h hc.1
    · rw [mkMatch_norm, if_neg]
      exact fun hc => h hc.2.1
  · intro h1 h2 h3 h4 h5
    rw [mkMatch_norm, if_pos]
    · rw [← h3, ← h4]
      simp [max_self, min_self]
    · refine ⟨h1, h2, ?_, ?_⟩ <;> rw [← h3, ← h4] <;> simp [max_self, min_self] <;> omega

theorem dayWeek_guard_witness :
    mkMatch ⟨"u", 2, 540, 600, 100⟩ ⟨⟨"v", 3, 540, 600, 100⟩, "v@x"⟩ = none ∧
    mkMatch ⟨"u", 2, 540, 600, 100⟩ ⟨⟨"v", 2, 540, 600, 100⟩, "v@x"⟩ =
      some ⟨"v", "v@x", 2, 540, 600, 60, 100⟩ :=
  ⟨(dayWeek_guard _ _).1 (Or.inl (by decide)),
   (dayWeek_guard _ _).2 rfl rfl rfl rfl (by decide)⟩

lemma mem_dedupGo (seen : List (Nat × Nat × Nat)) (ms : List MatchC) (x : MatchC) :
    x ∈ dedupGo seen ms ↔
      mKey x ∉ seen ∧ ms.find? (fun y => mKey y = mKey x) = some x := by
  induction ms generalizing seen with
  | nil => simp [dedupGo]
  | cons m rest ih =>
    simp only [dedupGo]
    by_cases hm : mKey m ∈ seen
    · rw [if_pos hm, ih]
      by_cases hk : mKey m = mKey x
      · rw [List.find?_cons_of_pos _ (by simp [hk])]
        constructor
        · rintro ⟨hns, _⟩
          exact absurd (hk ▸ hm) hns
        · rintro ⟨hns, _⟩
          exact absurd (hk ▸ hm) hns
      · rw [List.find?_cons_of_neg _ (by simp [hk])]
    · rw [if_neg hm]
      simp only [List.mem_cons]
      by_cases hk : mKey m = mKey x
      · rw [List.find?_cons_of_pos _ (by simp [hk])]
        constructor
        · rintro (rfl | hmem)
          · exact ⟨hk ▸ hm, rfl⟩
          · have h2 := (ih _).1 hmem
            exact absurd (by simp [← hk]) h2.1
        · rintro ⟨hns, hsome⟩
          exact Or.inl (Option.some_injective _ hsome).symm
      · rw [List.find?_cons_of_neg _ (by simp [hk])]
        constructor
        · rintro (rfl | hmem)
          · exact absurd rfl hk
          · have h2 := (ih _).1 hmem
            simp only [List.mem_cons, not_or] at h2
            exact ⟨h2.1.2, h2.2⟩
        · rintro ⟨hns, hsome⟩
          refine Or.inr ((ih _).2 ⟨?_, hsome⟩)
          simp only [List.mem_cons, not_or]
          exact ⟨fun he => hk he.symm, hns⟩

lemma dedupGo_pairwise (seen : List (Nat × Nat × Nat)) (ms : List MatchC) :
    (dedupGo seen ms).Pairwise (fun a b => mKey a ≠ mKey b) := by
  induction ms generalizing seen with
  | nil => exact List.Pairwise.nil
  | cons m rest ih =>
    simp only [dedupGo]
    split
    · exact ih _
    · refine List.Pairwise.cons ?_ (ih _)
      intro b hb hEq
      have h2 := (mem_dedupGo _ _ _).1 hb
      exact h2.1 (by simp [← hEq])

lemma dedupGo_sublist (seen : List (Nat × Nat × Nat)) (ms : List MatchC) :
    (dedupGo seen ms).Sublist ms := by
  induction ms generalizing seen with
  | nil => simp [dedupGo]
  | cons m rest ih =>
    simp only [dedupGo]
    split
    · exact (ih _).trans (List.sublist_cons_self _ _)
    · exact (ih _).cons₂ m

/-- C2: the deduplication step feeding the round-robin reducer keeps, for
each (day, start, end) key, exactly the first-seen candidate: the output
has pairwise distinct keys, a candidate is in the output exactly when it
is the first element of the input with its key, and every input candidate
is represented by the first-seen candidate of its key. -/
theorem dedup_firstSeen (ms : List MatchC) :
    (dedupMatches ms).Pairwise (fun a b => mKey a ≠ mKey b) ∧
    (∀ x, x ∈ dedupMatches ms ↔ ms.find? (fun y => mKey y = mKey x) = some x) ∧
    (∀ m ∈ ms, ∃ x, x ∈ dedupMatches ms ∧ mKey x = mKey m ∧
      ms.find? (fun y => mKey y = mKey m) = some x) := by
  refine ⟨dedupGo_pairwise [] ms, fun x => ?_, fun m hm => ?_⟩
  · rw [dedupMatches, mem_dedupGo]
    simp
  · have hsome : (ms.find? (fun y => mKey y = mKey m)).isSome := by
      rw [List.find?_isSome]
      exact ⟨m, hm, by simp⟩
    obtain ⟨x, hx⟩ := Option.isSome_iff_exists.1 hsome
    have hpx : mKey x = mKey m := by
      have := List.find?_some hx
      simpa using this
    refine ⟨x, ?_, hpx, hx⟩
    rw [dedupMatches, mem_dedupGo]
    refine ⟨by simp, ?_⟩
    have : (fun y => decide (mKey y = mKey x)) = (fun y => decide (mKey y = mKey m)) := by
      funext y
      rw [hpx]
    rw [this]
    exact hx

theorem dedup_firstSeen_witness :
    ∃ x, x ∈ dedupMatches
        [⟨"p", "e", 1, 540, 600, 60, 100⟩, ⟨"q", "f", 1, 540, 600, 60, 100⟩] ∧
      mKey x = mKey (⟨"q", "f", 1, 540, 600, 60, 100⟩ : MatchC) ∧
      List.find? (fun y => mKey y = mKey (⟨"q", "f", 1, 540, 600, 60, 100⟩ : MatchC))
        [⟨"p", "e", 1, 540, 600, 60, 100⟩, ⟨"q", "f", 1, 540, 600, 60, 100⟩] =
        some x :=
  (dedup_firstSeen
    [⟨"p", "e", 1, 540, 600, 60, 100⟩, ⟨"q", "f", 1, 540, 600, 60, 100⟩]).2.2
    ⟨"q", "f", 1, 540, 600, 60, 100⟩ (by decide)

lemma mem_dLoop (fuel limit total : Nat) (gs : List (Nat × List MatchC))
    (di : Nat) (acc : List MatchC) (x : MatchC)
    (hx : x ∈ dLoop fuel limit total gs di acc) :
    x ∈ acc ∨ ∃ p ∈ gs, x ∈ p.2 := by
  induction fuel generalizing gs di acc with
  | zero => exact Or.inl hx
  | succ fuel ih =>
    rw [dLoop] at hx
    split at hx
    · split at hx
      · rename_i d g heq
        cases g with
        | nil =>
          dsimp only at hx
          split at hx
          · exact Or.inl hx
          · exact ih _ _ _ hx
        | cons h t =>
          dsimp only at hx
          have hmem : (d, h :: t) ∈ gs := List.get?_mem heq
          have hsing : ∀ hy : x ∈ acc ++ [h], x ∈ acc ∨ ∃ p ∈ gs, x ∈ p.2 := by
            intro hy
            rcases List.mem_append.1 hy with h1 | h1
            · exact Or.inl h1
            · have hxh : x = h := by simpa using h1
              exact Or.inr ⟨(d, h :: t), hmem, by simp [hxh]⟩
          split at hx
          · exact hsing hx
          · rcases ih _ _ _ hx with h1 | ⟨p, hp, hxp⟩
            · exact hsing h1
            · rcases List.mem_or_eq_of_mem_set hp with h2 | h2
              · exact Or.inr ⟨p, h2, hxp⟩
              · subst h2
                exact Or.inr ⟨(d, h :: t), hmem, List.mem_cons_of_mem _ hxp⟩
      · exact Or.inl hx
    · exact Or.inl hx


lemma mem_distributeMatches (ms : List MatchC) (limit : Nat) (x : MatchC)
    (hx : x ∈ distributeMatches ms limit) : x ∈ ms := by
  rw [distributeMatches] at hx
  split at hx
  · exact hx
  · rcases mem_dLoop _ _ _ _ _ _ _ hx with h | ⟨p, hp, hxp⟩
    · simp at h
    · rcases List.mem_map.1 hp with ⟨d, _, rfl⟩
      have hxu : x ∈ dedupMatches ms := List.mem_of_mem_filter hxp
      exact (dedupGo_sublist [] ms).subset hxu

lemma mem_rawMatches (ua : List AvailRow) (oa : List OtherRow) (c : MatchC)
    (hc : c ∈ rawMatches ua oa) :
    ∃ u ∈ ua, ∃ o ∈ oa, mkMatch u o = some c := by
  rcases List.mem_flatMap.1 hc with ⟨u, hu, hcu⟩
  rcases List.mem_filterMap.1 hcu with ⟨o, ho, hmk⟩
  exact ⟨u, hu, o, ho, hmk⟩

lemma mkMatch_some (u : AvailRow) (o : OtherRow) (c : MatchC)
    (h : mkMatch u o = some c) :
    c.partnerId = o.slot.userId ∧
    c.dayOfWeek = u.dayOfWeek ∧ u.dayOfWeek = o.slot.dayOfWeek ∧
    c.weekKey = u.weekKey ∧ u.weekKey = o.slot.weekKey ∧
    c.startTime = max u.startTime o.slot.startTime ∧
    c.endTime = min u.endTime o.slot.endTime ∧
    c.duration = c.endTime - c.startTime ∧ 30 ≤ c.duration := by
  rw [mkMatch_norm] at h
  split at h
  · next hcond =>
    cases h
    exact ⟨rfl, rfl, hcond.1, rfl, hcond.2.1, rfl, rfl, rfl, hcond.2.2.2⟩
  · exact absurd h (by simp)

lemma findMatches_ok_decomp (db : DB) (uid : String) (wk : Nat)
    (res : List MatchC) (h : findMatches db uid wk = .ok res) :
    ∃ user, db.users.find? (fun u => u.id = uid) = some user ∧
      res = distributeMatches
        (rawMatches
          (db.availability.filter (fun a => a.userId = uid ∧ wk ≤ a.weekKey))
          (db.availability.filterMap fun a =>
            match db.users.find? (fun v => v.id = a.userId) with
            | some v =>
                if v.userType =
                    (if user.userType = "mentor" then "mentee" else "mentor") ∧
                    wk ≤ a.weekKey then
                  some ⟨a, v.email⟩
                else none
            | none => none)) 5 := by
  rw [findMatches] at h
  cases hf : db.users.find? (fun u => u.id = uid) with
  | none =>
    rw [hf] at h
    exact absurd h (by simp)
  | some user =>
    rw [hf] at h
    exact ⟨user, rfl, (Except.ok.injEq _ _ ▸ h).symm⟩

lemma findMatches_provenance (db : DB) (uid : String) (wk : Nat)
    (res : List MatchC) (h : findMatches db uid wk = .ok res)
    (c : MatchC) (hc : c ∈ res) :
    ∃ uS o, uS ∈ db.availability ∧ uS.userId = uid ∧ wk ≤ uS.weekKey ∧
      o.slot ∈ db.availability ∧ wk ≤ o.slot.weekKey ∧
      mkMatch uS o = some c := by
  rcases findMatches_ok_decomp db uid wk res h with ⟨user, _, rfl⟩
  have hraw := mem_distributeMatches _ _ _ hc
  rcases mem_rawMatches _ _ _ hraw with ⟨u, hu, o, ho, hmk⟩
  have hu2 := List.mem_filter.1 hu
  have hu3 : u.userId = uid ∧ wk ≤ u.weekKey := by
    have := hu2.2
    simpa using this
  rcases List.mem_filterMap.1 ho with ⟨a, ha, hfa⟩
  have hslot : o.slot = a ∧ wk ≤ a.weekKey := by
    cases hfv : db.users.find? (fun v => v.id = a.userId) with
    | none => rw [hfv] at hfa; exact absurd hfa (by simp)
    | some v =>
      rw [hfv] at hfa
      dsimp only at hfa
      by_cases hcond : v.userType =
          (if user.userType = "mentor" then "mentee" else "mentor") ∧ wk ≤ a.weekKey
      · rw [if_pos hcond] at hfa
        cases hfa
        exact ⟨rfl, hcond.2⟩
      · rw [if_neg hcond] at hfa
        exact absurd hfa (by simp)
  exact ⟨u, o, hu2.1, hu3.1, hu3.2, hslot.1 ▸ ha, hslot.1 ▸ hslot.2, hmk⟩

/-- C10: every candidate in an ok result of the match engine is
well-formed: its duration is the difference of its end and start times and
is at least 30, and its window is contained in a contributing slot of the
requesting user and one of the partner, all sharing the day of week and week key of
the candidate. -/
theorem matches_wellFormed (db : DB) (uid : String) (wk : Nat) (res : List MatchC)
    (h : findMatches db uid wk = .ok res) :
    ∀ c ∈ res,
      c.duration = c.endTime - c.startTime ∧ 30 ≤ c.duration ∧
      ∃ uS, uS ∈ db.availability ∧ uS.userId = uid ∧
        uS.dayOfWeek = c.dayOfWeek ∧ uS.weekKey = c.weekKey ∧
        uS.startTime ≤ c.startTime ∧ c.endTime ≤ uS.endTime ∧
        ∃ oS, oS ∈ db.availability ∧ oS.userId = c.partnerId ∧
          oS.dayOfWeek = c.dayOfWeek ∧ oS.weekKey = c.weekKey ∧
          oS.startTime ≤ c.startTime ∧ c.endTime ≤ oS.endTime := by
  intro c hc
  rcases findMatches_provenance db uid wk res h c hc with
    ⟨uS, o, huA, huId, _, hoA, _, hmk⟩
  rcases mkMatch_some _ _ _ hmk with
    ⟨hpid, hcday, hdayeq, hcweek, hweekeq, hstart, hend, hdur, h30⟩
  refine ⟨hdur, h30, uS, huA, huId, hcday.symm, hcweek.symm, ?_, ?_,
    o.slot, hoA, hpid.symm, (hcday.trans hdayeq).symm, (hcweek.trans hweekeq).symm,
    ?_, ?_⟩
  · rw [hstart]
    exact le_max_left _ _
  · rw [hend]
    exact min_le_left _ _
  · rw [hstart]
    exact le_max_right _ _
  · rw [hend]
    exact min_le_right _ _

theorem matches_wellFormed_witness :
    cPair.duration = cPair.endTime - cPair.startTime ∧ 30 ≤ cPair.duration ∧
    ∃ uS, uS ∈ dbPair.availability ∧ uS.userId = "a" ∧
      uS.dayOfWeek = cPair.dayOfWeek ∧ uS.weekKey = cPair.weekKey ∧
      uS.startTime ≤ cPair.startTime ∧ cPair.endTime ≤ uS.endTime ∧
      ∃ oS, oS ∈ dbPair.availability ∧ oS.userId = cPair.partnerId ∧
        oS.dayOfWeek = cPair.dayOfWeek ∧ oS.weekKey = cPair.weekKey ∧
        oS.startTime ≤ cPair.startTime ∧ cPair.endTime ≤ oS.endTime :=
  matches_wellFormed dbPair "a" 100 [cPair] rfl cPair (by decide)

/-- C6: every candidate in an ok result of the match engine derives from a
requesting-user slot and a partner slot whose week keys are at or after
the current week key; no slot of a strictly earlier week contributes. -/
theorem matches_currentOrFutureWeeks (db : DB) (uid : String) (wk : Nat)
    (res : List MatchC) (h : findMatches db uid wk = .ok res) :
    ∀ c ∈ res, wk ≤ c.weekKey ∧
      ∃ uS, uS ∈ db.availability ∧ uS.userId = uid ∧ wk ≤ uS.weekKey ∧
        uS.weekKey = c.weekKey ∧
        ∃ oS, oS ∈ db.availability ∧ oS.userId = c.partnerId ∧
          wk ≤ oS.weekKey ∧ oS.weekKey = c.weekKey := by
  intro c hc
  rcases findMatches_provenance db uid wk res h c hc with
    ⟨uS, o, huA, huId, huW, hoA, hoW, hmk⟩
  rcases mkMatch_some _ _ _ hmk with ⟨hpid, _, _, hcweek, hweekeq, _⟩
  refine ⟨by omega, uS, huA, huId, huW, hcweek.symm, o.slot, hoA, hpid.symm,
    hoW, (hcweek.trans hweekeq).symm⟩

theorem matches_currentOrFutureWeeks_witness :
    (100 : Nat) ≤ cPair.weekKey ∧
    ∃ uS, uS ∈ dbPair.availability ∧ uS.userId = "a" ∧ 100 ≤ uS.weekKey ∧
      uS.weekKey = cPair.weekKey ∧
      ∃ oS, oS ∈ dbPair.availability ∧ oS.userId = cPair.partnerId ∧
        100 ≤ oS.weekKey ∧ oS.weekKey = cPair.weekKey :=
  matches_currentOrFutureWeeks dbPair "a" 100 [cPair] rfl cPair (by decide)

lemma rawMatches_nil_left (oa : List OtherRow) : rawMatches [] oa = [] := rfl

lemma rawMatches_nil_right (ua : List AvailRow) : rawMatches ua [] = [] := by
  simp [rawMatches]

lemma distributeMatches_nil (limit : Nat) : distributeMatches [] limit = [] := by
  simp [distributeMatches]

/-- C7: the match engine signals an error exactly when the requesting user
record cannot be found; for a found user, empty own availability, absence
of opposite-type users, or no overlap of at least 30 minutes each yield
the ok empty list rather than an error. -/
theorem error_iff_unknown_user (db : DB) (uid : String) (wk : Nat) :
    ((∃ e, findMatches db uid wk = .error e) ↔
      db.users.find? (fun u => u.id = uid) = none) ∧
    (∀ user, db.users.find? (fun u => u.id = uid) = some user →
      (db.availability.filter (fun a => a.userId = uid ∧ wk ≤ a.weekKey) = [] →
        findMatches db uid wk = .ok []) ∧
      ((∀ v ∈ db.users,
          v.userType ≠ (if user.userType = "mentor" then "mentee" else "mentor")) →
        findMatches db uid wk = .ok []) ∧
      ((∀ s1 ∈ db.availability, ∀ s2 ∈ db.availability,
          min s1.endTime s2.endTime - max s1.startTime s2.startTime < 30) →
        findMatches db uid wk = .ok [])) := by
  constructor
  · constructor
    · rintro ⟨e, he⟩
      cases hf : db.users.find? (fun u => u.id = uid) with
      | none => rfl
      | some user =>
        rw [findMatches, hf] at he
        exact absurd he (by simp)
    · intro hf
      exact ⟨.userNotFound, by rw [findMatches, hf]⟩
  · intro user hf
    refine ⟨?_, ?_, ?_⟩
    · intro hUA
      rw [findMatches, hf]
      dsimp only
      rw [hUA, rawMatches_nil_left, distributeMatches_nil]
    · intro hno
      rw [findMatches, hf]
      dsimp only
      have hOA : (db.availability.filterMap fun a =>
          match db.users.find? (fun v => v.id = a.userId) with
          | some v =>
              if v.userType =
                  (if user.userType = "mentor" then "mentee" else "mentor") ∧
                  wk ≤ a.weekKey then
                some (⟨a, v.email⟩ : OtherRow)
              else none
          | none => none) = [] := by
        rw [List.filterMap_eq_nil_iff]
        intro a ha
        cases hfv : db.users.find? (fun v => v.id = a.userId) with
        | none => rfl
        | some v =>
          dsimp only
          rw [if_neg]
          intro hcond
          exact hno v (List.mem_of_find?_eq_some hfv) hcond.1
      rw [hOA, rawMatches_nil_right, distributeMatches_nil]
    · intro h30
      rw [findMatches, hf]
      dsimp only
      have hraw : rawMatches
          (db.availability.filter (fun a => a.userId = uid ∧ wk ≤ a.weekKey))
          (db.availability.filterMap fun a =>
            match db.users.find? (fun v => v.id = a.userId) with
            | some v =>
                if v.userType =
                    (if user.userType = "mentor" then "mentee" else "mentor") ∧
                    wk ≤ a.weekKey then
                  some ⟨a, v.email⟩
                else none
            | none => none) = [] := by
        rw [rawMatches, List.flatMap_eq_nil_iff]
        intro u hu
        rw [List.filterMap_eq_nil_iff]
        intro o ho
        have huA : u ∈ db.availability := List.mem_of_mem_filter hu
        have hoA : o.slot ∈ db.availability := by
          rcases List.mem_filterMap.1 ho with ⟨a, ha, hfa⟩
          cases hfv : db.users.find? (fun v => v.id = a.userId) with
          | none => rw [hfv] at hfa; exact absurd hfa (by simp)
          | some v =>
            rw [hfv] at hfa
            dsimp only at hfa
            by_cases hcond : v.userType =
                (if user.userType = "mentor" then "mentee" else "mentor") ∧
                wk ≤ a.weekKey
            · rw [if_pos hcond] at hfa
              cases hfa
              exact ha
            · rw [if_neg hcond] at hfa
              exact absurd hfa (by simp)
        rw [mkMatch_norm, if_neg]
        intro hcond
        exact absurd hcond.2.2.2 (by have := h30 u huA o.slot hoA; omega)
      rw [hraw, distributeMatches_nil]

theorem error_iff_unknown_user_witness :
    (∃ e, findMatches dbPair "z" 100 = .error e) ∧
    findMatches dbShort "a" 100 = .ok [] :=
  ⟨(error_iff_unknown_user dbPair "z" 100).1.mpr (by decide),
   ((error_iff_unknown_user dbShort "a" 100).2 ⟨"a", "a@x", "mentor"⟩
      (by decide)).2.2 (by decide)⟩

lemma all_isEmpty_iff (gs : List (Nat × List MatchC)) :
    (gs.all fun p => p.2.isEmpty) = true ↔ groupSum gs = 0 := by
  induction gs with
  | nil => simp [groupSum]
  | cons p rest ih =>
    simp [groupSum, List.all_cons, List.isEmpty_iff, List.length_eq_zero,
      Nat.add_eq_zero] at *
    rw [ih]
    exact fun _ => Iff.rfl

lemma sumLen_zero_iff (gss : List (List MatchC)) :
    (gss.map List.length).sum = 0 ↔ gss.all List.isEmpty = true := by
  induction gss with
  | nil => simp
  | cons g rest ih =>
    simp [List.all_cons, List.isEmpty_iff, List.length_eq_zero, Nat.add_eq_zero] at *
    rw [ih]
    exact fun _ => Iff.rfl

lemma sumLen_tails_le (gss : List (List MatchC)) :
    ((gss.map List.tail).map List.length).sum ≤ (gss.map List.length).sum := by
  induction gss with
  | nil => simp
  | cons g rest ih =>
    simp only [List.map_cons, List.sum_cons]
    have : g.tail.length ≤ g.length := by
      cases g <;> simp
    omega

lemma sumLen_tails_lt (gss : List (List MatchC))
    (h : ¬ gss.all List.isEmpty = true) :
    ((gss.map List.tail).map List.length).sum < (gss.map List.length).sum := by
  induction gss with
  | nil => simp at h
  | cons g rest ih =>
    simp only [List.all_cons, Bool.and_eq_true, not_and_or] at h
    rcases h with h | h
    · have hg : g.length ≠ 0 := by
        intro h0
        exact h (by simp [List.isEmpty_iff, List.length_eq_zero.1 h0])
      have : g.tail.length < g.length := by
        cases g
        · simp at hg
        · simp
      have h2 := sumLen_tails_le rest
      simp only [List.map_cons, List.sum_cons]
      omega
    · have := ih h
      have : g.tail.length ≤ g.length := by cases g <;> simp
      simp only [List.map_cons, List.sum_cons]
      omega

lemma rrRounds_allEmpty (n : Nat) (gss : List (List MatchC))
    (h : gss.all List.isEmpty = true) : rrRounds n gss = [] := by
  cases n with
  | zero => rfl
  | succ n => rw [rrRounds, if_pos h]

lemma rrRounds_congr (m : Nat) : ∀ (n : Nat) (gss : List (List MatchC)),
    (gss.map List.length).sum ≤ m → (gss.map List.length).sum ≤ n →
    rrRounds m gss = rrRounds n gss := by
  induction m with
  | zero =>
    intro n gss hm _
    have hall : gss.all List.isEmpty = true :=
      (sumLen_zero_iff gss).1 (Nat.le_zero.1 hm)
    rw [rrRounds_allEmpty _ _ hall, rrRounds_allEmpty _ _ hall]
  | succ m ih =>
    intro n gss hm hn
    by_cases hall : gss.all List.isEmpty = true
    · rw [rrRounds_allEmpty _ _ hall, rrRounds_allEmpty _ _ hall]
    · have hpos : 1 ≤ (gss.map List.length).sum := by
        rcases Nat.eq_zero_or_pos ((gss.map List.length).sum) with h0 | h0
        · exact absurd ((sumLen_zero_iff gss).1 h0) hall
        · exact h0
      cases n with
      | zero => omega
      | succ n =>
        rw [rrRounds, rrRounds, if_neg hall, if_neg hall]
        have hlt := sumLen_tails_lt gss hall
        rw [ih n (gss.map List.tail) (by omega) (by omega)]

lemma roundRobin_unfold (gss : List (List MatchC)) :
    roundRobin gss = gss.filterMap List.head? ++ roundRobin (gss.map List.tail) := by
  by_cases hall : gss.all List.isEmpty = true
  · rw [roundRobin, rrRounds_allEmpty _ _ hall]
    have h1 : gss.filterMap List.head? = [] := by
      rw [List.filterMap_eq_nil_iff]
      intro g hg
      have := (List.all_eq_true.1 hall) g hg
      simp [List.isEmpty_iff] at this
      simp [this]
    have h2 : (gss.map List.tail).all List.isEmpty = true := by
      rw [List.all_eq_true]
      intro g hg
      rcases List.mem_map.1 hg with ⟨g0, hg0, rfl⟩
      have := (List.all_eq_true.1 hall) g0 hg0
      simp [List.isEmpty_iff] at this
      simp [this]
    rw [h1, roundRobin, rrRounds_allEmpty _ _ h2]
    rfl
  · have hpos : 1 ≤ (gss.map List.length).sum := by
      rcases Nat.eq_zero_or_pos ((gss.map List.length).sum) with h0 | h0
      · exact absurd ((sumLen_zero_iff gss).1 h0) hall
      · exact h0
    rw [roundRobin]
    rcases Nat.exists_eq_add_of_le hpos with ⟨s, hs⟩
    have hs2 : (gss.map List.length).sum = s + 1 := by omega
    rw [hs2, rrRounds, if_neg hall]
    congr 1
    rw [roundRobin]
    have hlt := sumLen_tails_lt gss hall
    exact rrRounds_congr s _ (gss.map List.tail) (by omega) le_rfl

lemma rrRounds_length (n : Nat) : ∀ (gss : List (List MatchC)),
    (gss.map List.length).sum ≤ n →
    (rrRounds n gss).length = (gss.map List.length).sum := by
  induction n with
  | zero =>
    intro gss hm
    rw [rrRounds_allEmpty _ _ ((sumLen_zero_iff gss).1 (Nat.le_zero.1 hm))]
    simp only [List.length_nil]
    omega
  | succ n ih =>
    intro gss hn
    by_cases hall : gss.all List.isEmpty = true
    · rw [rrRounds_allEmpty _ _ hall]
      have := (sumLen_zero_iff gss).2 hall
      simp [this]
    · rw [rrRounds, if_neg hall]
      have hlt := sumLen_tails_lt gss hall
      rw [List.length_append, ih (gss.map List.tail) (by omega)]
      have hheads : ∀ gss2 : List (List MatchC),
          (gss2.filterMap List.head?).length +
            ((gss2.map List.tail).map List.length).sum =
          (gss2.map List.length).sum := by
        intro gss2
        induction gss2 with
        | nil => simp
        | cons g rest ih2 =>
          cases g with
          | nil => simpa using ih2
          | cons h t =>
            simp only [List.filterMap_cons, List.head?_cons, List.map_cons,
              List.sum_cons, List.length_cons, List.tail_cons]
            omega
      have := hheads gss
      omega

lemma roundRobin_length (gss : List (List MatchC)) :
    (roundRobin gss).length = (gss.map List.length).sum :=
  rrRounds_length _ gss le_rfl

lemma get?_append_cons {α : Type} (pre : List α) (x : α) (post : List α) :
    (pre ++ x :: post).get? pre.length = some x := by
  induction pre with
  | nil => rfl
  | cons p pre ih => simpa using ih

lemma set_append_cons {α : Type} (pre : List α) (x y : α) (post : List α) :
    (pre ++ x :: post).set pre.length y = pre ++ y :: post := by
  induction pre with
  | nil => rfl
  | cons p pre ih => simp [ih]

lemma groupSum_append (l1 l2 : List (Nat × List MatchC)) :
    groupSum (l1 ++ l2) = groupSum l1 + groupSum l2 := by
  simp [groupSum]

lemma groupSum_cons (p : Nat × List MatchC) (l : List (Nat × List MatchC)) :
    groupSum (p :: l) = p.2.length + groupSum l := by
  simp [groupSum]

lemma midEmit_allEmpty (pre rest : List (Nat × List MatchC))
    (h : ∀ p ∈ pre ++ rest, p.2 = ([] : List MatchC)) : midEmit pre rest = [] := by
  rw [midEmit]
  have h1 : rest.filterMap (fun p => p.2.head?) = [] := by
    rw [List.filterMap_eq_nil_iff]
    intro p hp
    rw [h p (List.mem_append_right _ hp)]
    rfl
  have h2 : ((pre ++ rest.map fun p => (p.1, p.2.tail)).map fun p => p.2).all
      List.isEmpty = true := by
    rw [List.all_eq_true]
    intro g hg
    rcases List.mem_map.1 hg with ⟨p, hp, rfl⟩
    rcases List.mem_append.1 hp with hp | hp
    · simp [h p (List.mem_append_left _ hp), List.isEmpty_iff]
    · rcases List.mem_map.1 hp with ⟨q, hq, rfl⟩
      simp [h q (List.mem_append_right _ hq), List.isEmpty_iff]
  rw [h1, roundRobin, rrRounds_allEmpty _ _ h2]
  rfl

lemma midEmit_empty_step (pre : List (Nat × List MatchC)) (d : Nat)
    (post : List (Nat × List MatchC)) :
    midEmit pre ((d, ([] : List MatchC)) :: post) = midEmit (pre ++ [(d, ([] : List MatchC))]) post := by
  rw [midEmit, midEmit]
  simp [List.append_assoc]

lemma midEmit_push_step (pre : List (Nat × List MatchC)) (d : Nat) (h : MatchC)
    (t : List MatchC) (post : List (Nat × List MatchC)) :
    midEmit pre ((d, h :: t) :: post) = h :: midEmit (pre ++ [(d, t)]) post := by
  rw [midEmit, midEmit]
  simp [List.append_assoc]

lemma midEmit_zero (gs : List (Nat × List MatchC)) :
    midEmit [] gs = roundRobin (gs.map fun p => p.2) := by
  rw [midEmit, roundRobin_unfold (gs.map fun p => p.2)]
  congr 1
  · rw [List.filterMap_map]
    rfl
  · congr 1
    simp [List.map_map]

lemma mod_step (di k r : Nat) (h : di % k = r) (h2 : r + 1 < k) :
    (di + 1) % k = r + 1 := by
  have h1 : 1 % k = 1 := Nat.mod_eq_of_lt (by omega)
  rw [Nat.add_mod, h, h1, Nat.mod_eq_of_lt h2]

lemma mod_wrap (di k : Nat) (hk : 0 < k) (h : di % k = k - 1) :
    (di + 1) % k = 0 := by
  rcases Nat.lt_or_ge 1 k with h1 | h1
  · have h2 : 1 % k = 1 := Nat.mod_eq_of_lt h1
    rw [Nat.add_mod, h, h2]
    have h3 : k - 1 + 1 = k := by omega
    rw [h3, Nat.mod_self]
  · have hk1 : k = 1 := by omega
    subst hk1
    simp [Nat.mod_one]

lemma midEmit_rest_nil (pre : List (Nat × List MatchC)) :
    midEmit pre [] = roundRobin (pre.map fun p => p.2) := by
  rw [midEmit]
  simp

lemma groupSum_eq_zero (l : List (Nat × List MatchC)) (h : groupSum l = 0) :
    ∀ p ∈ l, p.2 = ([] : List MatchC) := by
  intro p hp
  have hall := (all_isEmpty_iff l).2 h
  have := List.all_eq_true.1 hall p hp
  simpa [List.isEmpty_iff] using this

lemma dLoop_midEmit (fuel : Nat) : ∀ (limit total : Nat)
    (pre : List (Nat × List MatchC)) (d : Nat) (g : List MatchC)
    (post : List (Nat × List MatchC)) (di : Nat) (acc : List MatchC),
    di % (pre ++ (d, g) :: post).length = pre.length →
    acc.length + groupSum (pre ++ (d, g) :: post) = total →
    groupSum (pre ++ (d, g) :: post) * (pre ++ (d, g) :: post).length +
        ((pre ++ (d, g) :: post).length - pre.length) +
        (if ((d, g) :: post).all (fun p => p.2.isEmpty) then
          (pre ++ (d, g) :: post).length else 0) ≤ fuel →
    dLoop fuel limit total (pre ++ (d, g) :: post) di acc =
      acc ++ (midEmit pre ((d, g) :: post)).take (limit - acc.length) := by
  induction fuel with
  | zero =>
    intro limit total pre d g post di acc hdi htot hfuel
    exfalso
    have hk : pre.length < (pre ++ (d, g) :: post).length := by
      simp [List.length_append]
    split at hfuel <;> omega
  | succ fuel ih =>
    intro limit total pre d g post di acc hdi htot hfuel
    rw [dLoop]
    by_cases hcond : acc.length < limit ∧ acc.length < total
    · rw [if_pos hcond]
      have hget : (pre ++ (d, g) :: post).get?
          (di % (pre ++ (d, g) :: post).length) = some (d, g) := by
        rw [hdi]
        exact get?_append_cons pre (d, g) post
      rw [hget]
      cases g with
      | nil =>
        dsimp only
        by_cases hall : ((pre ++ (d, ([] : List MatchC)) :: post).all
            fun p => p.2.isEmpty) = true
        · exfalso
          have h0 := (all_isEmpty_iff _).1 hall
          omega
        · rw [if_neg hall]
          cases post with
          | nil =>
            cases pre with
            | nil =>
              exfalso
              exact hall (by simp)
            | cons q pre2 =>
              obtain ⟨dq, gq⟩ := q
              have hre : ((dq, gq) :: pre2) ++ (d, ([] : List MatchC)) :: [] =
                  [] ++ (dq, gq) :: (pre2 ++ [(d, ([] : List MatchC))]) := by
                simp
              have hk1 : (((dq, gq) :: pre2) ++ (d, ([] : List MatchC)) :: []).length =
                  pre2.length + 2 := by
                simp
              have hk2 : (([] : List (Nat × List MatchC)) ++
                  (dq, gq) :: (pre2 ++ [(d, ([] : List MatchC))])).length =
                  pre2.length + 2 := by
                simp
              rw [hk1] at hdi
              have hdi2 : di % (pre2.length + 2) = pre2.length + 1 := by
                simpa using hdi
              have h1 : (di + 1) % (([] : List (Nat × List MatchC)) ++
                  (dq, gq) :: (pre2 ++ [(d, ([] : List MatchC))])).length =
                  ([] : List (Nat × List MatchC)).length := by
                rw [hk2]
                simpa using mod_wrap di (pre2.length + 2) (by omega) (by omega)
              have hSeq : groupSum (([] : List (Nat × List MatchC)) ++
                  (dq, gq) :: (pre2 ++ [(d, ([] : List MatchC))])) =
                  groupSum (((dq, gq) :: pre2) ++ (d, ([] : List MatchC)) :: []) := by
                simp [groupSum_append, groupSum_cons]
              have h2 : acc.length + groupSum (([] : List (Nat × List MatchC)) ++
                  (dq, gq) :: (pre2 ++ [(d, ([] : List MatchC))])) = total := by
                rw [hSeq]
                exact htot
              have hPeq : groupSum (([] : List (Nat × List MatchC)) ++
                  (dq, gq) :: (pre2 ++ [(d, ([] : List MatchC))])) *
                  (([] : List (Nat × List MatchC)) ++
                  (dq, gq) :: (pre2 ++ [(d, ([] : List MatchC))])).length =
                  groupSum (((dq, gq) :: pre2) ++ (d, ([] : List MatchC)) :: []) *
                  (pre2.length + 2) := by
                rw [hSeq, hk2]
              have hft : (((d, ([] : List MatchC))) :: ([] : List (Nat × List MatchC))).all
                  (fun p => p.2.isEmpty) = true := by
                simp
              rw [hk1, if_pos hft] at hfuel
              have hfg : ((dq, gq) :: (pre2 ++ [(d, ([] : List MatchC))])).all
                  (fun p => p.2.isEmpty) =
                  (((dq, gq) :: pre2) ++ (d, ([] : List MatchC)) :: []).all
                  (fun p => p.2.isEmpty) := by
                simp
              have h3 : groupSum (([] : List (Nat × List MatchC)) ++
                  (dq, gq) :: (pre2 ++ [(d, ([] : List MatchC))])) *
                  (([] : List (Nat × List MatchC)) ++
                  (dq, gq) :: (pre2 ++ [(d, ([] : List MatchC))])).length +
                  ((([] : List (Nat × List MatchC)) ++
                  (dq, gq) :: (pre2 ++ [(d, ([] : List MatchC))])).length -
                    ([] : List (Nat × List MatchC)).length) +
                  (if ((dq, gq) :: (pre2 ++ [(d, ([] : List MatchC))])).all
                      (fun p => p.2.isEmpty) then
                    (([] : List (Nat × List MatchC)) ++
                    (dq, gq) :: (pre2 ++ [(d, ([] : List MatchC))])).length
                  else 0) ≤ fuel := by
                rw [hPeq, hk2, hfg, if_neg hall]
                simp only [List.length_nil]
                omega
              rw [hre, ih limit total [] dq gq (pre2 ++ [(d, ([] : List MatchC))])
                (di + 1) acc h1 h2 h3, midEmit_zero, midEmit_empty_step,
                midEmit_rest_nil]
              rfl
          | cons p post2 =>
            obtain ⟨dp, gp⟩ := p
            have hre : pre ++ (d, ([] : List MatchC)) :: (dp, gp) :: post2 =
                (pre ++ [(d, ([] : List MatchC))]) ++ (dp, gp) :: post2 := by
              simp
            have hk1 : (pre ++ (d, ([] : List MatchC)) :: (dp, gp) :: post2).length =
                pre.length + post2.length + 2 := by
              simp
              omega
            have hk2 : ((pre ++ [(d, ([] : List MatchC))]) ++ (dp, gp) :: post2).length =
                pre.length + post2.length + 2 := by
              simp
              omega
            rw [hk1] at hdi
            have h1 : (di + 1) %
                ((pre ++ [(d, ([] : List MatchC))]) ++ (dp, gp) :: post2).length =
                (pre ++ [(d, ([] : List MatchC))]).length := by
              rw [hk2]
              have := mod_step di (pre.length + post2.length + 2) pre.length hdi
                (by omega)
              simpa using this
            have hSeq : groupSum ((pre ++ [(d, ([] : List MatchC))]) ++ (dp, gp) :: post2) =
                groupSum (pre ++ (d, ([] : List MatchC)) :: (dp, gp) :: post2) := by
              simp [groupSum_append, groupSum_cons]
            have h2 : acc.length +
                groupSum ((pre ++ [(d, ([] : List MatchC))]) ++ (dp, gp) :: post2) =
                total := by
              rw [hSeq]
              exact htot
            have hPeq : groupSum ((pre ++ [(d, ([] : List MatchC))]) ++ (dp, gp) :: post2) *
                ((pre ++ [(d, ([] : List MatchC))]) ++ (dp, gp) :: post2).length =
                groupSum (pre ++ (d, ([] : List MatchC)) :: (dp, gp) :: post2) *
                (pre.length + post2.length + 2) := by
              rw [hSeq, hk2]
            have hflag : ((d, ([] : List MatchC)) :: (dp, gp) :: post2).all
                (fun p => p.2.isEmpty) =
                ((dp, gp) :: post2).all (fun p => p.2.isEmpty) := by
              simp
            rw [hk1, hflag] at hfuel
            have hpl : (pre ++ [(d, ([] : List MatchC))]).length = pre.length + 1 := by
              simp
            have h3 : groupSum ((pre ++ [(d, ([] : List MatchC))]) ++ (dp, gp) :: post2) *
                ((pre ++ [(d, ([] : List MatchC))]) ++ (dp, gp) :: post2).length +
                (((pre ++ [(d, ([] : List MatchC))]) ++ (dp, gp) :: post2).length -
                  (pre ++ [(d, ([] : List MatchC))]).length) +
                (if ((dp, gp) :: post2).all (fun p => p.2.isEmpty) then
                  ((pre ++ [(d, ([] : List MatchC))]) ++ (dp, gp) :: post2).length
                else 0) ≤ fuel := by
              rw [hPeq, hk2, hpl]
              by_cases hflag2 : ((dp, gp) :: post2).all (fun p => p.2.isEmpty) = true
              · rw [if_pos hflag2] at hfuel ⊢
                omega
              · rw [if_neg hflag2] at hfuel ⊢
                omega
            rw [hre, ih limit total (pre ++ [(d, ([] : List MatchC))]) dp gp post2
              (di + 1) acc h1 h2 h3, midEmit_empty_step]
      | cons h t =>
        dsimp only
        have hset : (pre ++ (d, h :: t) :: post).set
            (di % (pre ++ (d, h :: t) :: post).length) (d, t) =
            pre ++ (d, t) :: post := by
          rw [hdi]
          exact set_append_cons pre (d, h :: t) (d, t) post
        rw [hset]
        by_cases hall1 : ((pre ++ (d, t) :: post).all fun p => p.2.isEmpty) = true
        · rw [if_pos hall1]
          rw [midEmit_push_step]
          have hme : midEmit (pre ++ [(d, t)]) post = [] := by
            apply midEmit_allEmpty
            intro p hp
            have hp2 : p ∈ pre ++ (d, t) :: post := by
              rcases List.mem_append.1 hp with hp | hp
              · rcases List.mem_append.1 hp with hp | hp
                · exact List.mem_append_left _ hp
                · have hpe : p = (d, t) := by simpa using hp
                  subst hpe
                  exact List.mem_append_right _ (List.mem_cons_self _ _)
              · exact List.mem_append_right _ (List.mem_cons_of_mem _ hp)
            have := List.all_eq_true.1 hall1 p hp2
            simpa [List.isEmpty_iff] using this
          rw [hme]
          obtain ⟨m, hm⟩ : ∃ m, limit - acc.length = m + 1 :=
            ⟨limit - acc.length - 1, by omega⟩
          rw [hm]
          simp
        · rw [if_neg hall1]
          cases post with
          | nil =>
            have hk0 : (pre ++ (d, h :: t) :: ([] : List (Nat × List MatchC))).length =
                pre.length + 1 := by
              simp
            rw [hk0] at hdi hfuel
            cases hgs : pre ++ (d, t) :: ([] : List (Nat × List MatchC)) with
            | nil => simp at hgs
            | cons q rest2 =>
              obtain ⟨dq, gq⟩ := q
              have hlen2 : ((dq, gq) :: rest2).length = pre.length + 1 := by
                rw [← hgs]
                simp
              have h1 : (di + 1) % (([] : List (Nat × List MatchC)) ++
                  (dq, gq) :: rest2).length =
                  ([] : List (Nat × List MatchC)).length := by
                simp only [List.nil_append, hlen2, List.length_nil]
                exact mod_wrap di (pre.length + 1) (by omega) (by omega)
              have hS1 : groupSum ((dq, gq) :: rest2) + 1 =
                  groupSum (pre ++ (d, h :: t) :: ([] : List (Nat × List MatchC))) := by
                rw [← hgs]
                simp [groupSum_append, groupSum_cons]
                omega
              have hacc : (acc ++ [h]).length = acc.length + 1 := by simp
              have h2 : (acc ++ [h]).length + groupSum
                  (([] : List (Nat × List MatchC)) ++ (dq, gq) :: rest2) = total := by
                simp only [List.nil_append]
                omega
              have hmul : groupSum ((dq, gq) :: rest2) * (pre.length + 1) +
                  (pre.length + 1) =
                  groupSum (pre ++ (d, h :: t) :: ([] : List (Nat × List MatchC))) *
                  (pre.length + 1) := by
                rw [← hS1, Nat.succ_mul]
              have hof : (((d, h :: t) :: ([] : List (Nat × List MatchC))).all
                (fun p => p.2.isEmpty)) = false := by
                simp
              rw [hof] at hfuel
              simp only [Bool.false_eq_true, if_false] at hfuel
              have hflag : ((dq, gq) :: rest2).all (fun p => p.2.isEmpty) = false := by
                rw [← hgs]
                by_cases hx : ((pre ++ (d, t) :: ([] : List (Nat × List MatchC))).all
                    (fun p => p.2.isEmpty)) = true
                · exact absurd hx hall1
                · simpa using hx
              have h3 : groupSum (([] : List (Nat × List MatchC)) ++
                  (dq, gq) :: rest2) *
                  (([] : List (Nat × List MatchC)) ++ (dq, gq) :: rest2).length +
                  ((([] : List (Nat × List MatchC)) ++ (dq, gq) :: rest2).length -
                    ([] : List (Nat × List MatchC)).length) +
                  (if ((dq, gq) :: rest2).all (fun p => p.2.isEmpty) then
                    (([] : List (Nat × List MatchC)) ++ (dq, gq) :: rest2).length
                  else 0) ≤ fuel := by
                simp only [List.nil_append, hlen2, List.length_nil, hflag,
                  Bool.false_eq_true, if_false]
                omega
              have hIH := ih limit total [] dq gq rest2 (di + 1) (acc ++ [h]) h1 h2 h3
              simp only [List.nil_append] at hIH
              rw [hIH, midEmit_push_step, midEmit_zero, midEmit_rest_nil, ← hgs]
              have hm : limit - acc.length = (limit - (acc.length + 1)) + 1 := by
                omega
              rw [hacc, hm, List.take_succ_cons]
              simp
          | cons p post2 =>
            obtain ⟨dp, gp⟩ := p
            have hre : pre ++ (d, t) :: (dp, gp) :: post2 =
                (pre ++ [(d, t)]) ++ (dp, gp) :: post2 := by
              simp
            have hk0 : (pre ++ (d, h :: t) :: (dp, gp) :: post2).length =
                pre.length + post2.length + 2 := by
              simp
              omega
            have hk2 : ((pre ++ [(d, t)]) ++ (dp, gp) :: post2).length =
                pre.length + post2.length + 2 := by
              simp
              omega
            rw [hk0] at hdi hfuel
            have h1 : (di + 1) % ((pre ++ [(d, t)]) ++ (dp, gp) :: post2).length =
                (pre ++ [(d, t)]).length := by
              rw [hk2]
              have := mod_step di (pre.length + post2.length + 2) pre.length hdi
                (by omega)
              simpa using this
            have hS1 : groupSum ((pre ++ [(d, t)]) ++ (dp, gp) :: post2) + 1 =
                groupSum (pre ++ (d, h :: t) :: (dp, gp) :: post2) := by
              simp [groupSum_append, groupSum_cons]
              omega
            have hacc : (acc ++ [h]).length = acc.length + 1 := by simp
            have h2 : (acc ++ [h]).length +
                groupSum ((pre ++ [(d, t)]) ++ (dp, gp) :: post2) = total := by
              omega
            have hmul : groupSum ((pre ++ [(d, t)]) ++ (dp, gp) :: post2) *
                (pre.length + post2.length + 2) + (pre.length + post2.length + 2) =
                groupSum (pre ++ (d, h :: t) :: (dp, gp) :: post2) *
                (pre.length + post2.length + 2) := by
              rw [← hS1, Nat.succ_mul]
            have hof : (((d, h :: t) :: (dp, gp) :: post2).all
                (fun p => p.2.isEmpty)) = false := by
              simp
            rw [hof] at hfuel
            simp only [Bool.false_eq_true, if_false] at hfuel
            have hpl : (pre ++ [(d, t)]).length = pre.length + 1 := by simp
            have h3 : groupSum ((pre ++ [(d, t)]) ++ (dp, gp) :: post2) *
                ((pre ++ [(d, t)]) ++ (dp, gp) :: post2).length +
                (((pre ++ [(d, t)]) ++ (dp, gp) :: post2).length -
                  (pre ++ [(d, t)]).length) +
                (if ((dp, gp) :: post2).all (fun p => p.2.isEmpty) then
                  ((pre ++ [(d, t)]) ++ (dp, gp) :: post2).length
                else 0) ≤ fuel := by
              rw [hk2, hpl]
              by_cases hflag2 : ((dp, gp) :: post2).all (fun p => p.2.isEmpty) = true
              · rw [if_pos hflag2]
                omega
              · rw [if_neg hflag2]
                omega
            rw [hre, ih limit total (pre ++ [(d, t)]) dp gp post2 (di + 1)
              (acc ++ [h]) h1 h2 h3, midEmit_push_step]
            have hm : limit - acc.length = (limit - (acc.length + 1)) + 1 := by
              omega
            rw [hacc, hm, List.take_succ_cons]
            simp
    · rw [if_neg hcond]
      by_cases hlim : acc.length < limit
      · have hR : groupSum (pre ++ (d, g) :: post) = 0 := by omega
        have hme : midEmit pre ((d, g) :: post) = [] :=
          midEmit_allEmpty _ _ (groupSum_eq_zero _ hR)
        rw [hme]
        simp
      · have h0 : limit - acc.length = 0 := by omega
        rw [h0]
        simp

lemma sum_map_add (days : List Nat) (f g : Nat → Nat) :
    (days.map (fun d => f d + g d)).sum = (days.map f).sum + (days.map g).sum := by
  induction days with
  | nil => simp
  | cons d rest ih =>
    simp [ih]
    omega

lemma sum_indicator_zero (days : List Nat) (x : Nat) (hx : x ∉ days) :
    (days.map (fun d => if x = d then 1 else 0)).sum = 0 := by
  induction days with
  | nil => simp
  | cons d rest ih =>
    simp only [List.mem_cons, not_or] at hx
    simp [if_neg hx.1, ih hx.2]

lemma sum_indicator_one (days : List Nat) (x : Nat) (hnd : days.Nodup)
    (hx : x ∈ days) :
    (days.map (fun d => if x = d then 1 else 0)).sum = 1 := by
  induction days with
  | nil => simp at hx
  | cons d rest ih =>
    rcases List.mem_cons.1 hx with rfl | hx2
    · have hnotin : x ∉ rest := (List.nodup_cons.1 hnd).1
      simp [sum_indicator_zero rest x hnotin]
    · have hne : x ≠ d := by
        rintro rfl
        exact (List.nodup_cons.1 hnd).1 hx2
      simp [if_neg hne, ih (List.nodup_cons.1 hnd).2 hx2]

lemma partition_sum (days : List Nat) (l : List MatchC) (hnd : days.Nodup)
    (hc : ∀ m ∈ l, m.dayOfWeek ∈ days) :
    groupSum (days.map (fun d => (d, l.filter (fun m => m.dayOfWeek = d)))) =
      l.length := by
  have hgs : groupSum (days.map (fun d => (d, l.filter (fun m => m.dayOfWeek = d)))) =
      (days.map (fun d => (l.filter (fun m => m.dayOfWeek = d)).length)).sum := by
    simp [groupSum, List.map_map]
    rfl
  rw [hgs]
  clear hgs
  induction l with
  | nil => simp
  | cons m rest ih =>
    have hrw : ∀ d : Nat, ((m :: rest).filter (fun x => x.dayOfWeek = d)).length =
        (if m.dayOfWeek = d then 1 else 0) +
        (rest.filter (fun x => x.dayOfWeek = d)).length := by
      intro d
      by_cases hd : m.dayOfWeek = d
      · simp [List.filter_cons, hd]
        omega
      · simp [List.filter_cons, hd]
    have hmap : (days.map (fun d => ((m :: rest).filter
        (fun x => x.dayOfWeek = d)).length)).sum =
        (days.map (fun d => (if m.dayOfWeek = d then 1 else 0) +
          (rest.filter (fun x => x.dayOfWeek = d)).length)).sum := by
      congr 1
      exact List.map_congr_left (fun d _ => hrw d)
    rw [hmap, sum_map_add, sum_indicator_one days m.dayOfWeek hnd
      (hc m (List.mem_cons_self _ _)), ih (fun x hx => hc x (List.mem_cons_of_mem _ hx))]
    simp
    omega

lemma dedupMatches_ne_nil (ms : List MatchC) (h : ms ≠ []) :
    dedupMatches ms ≠ [] := by
  cases ms with
  | nil => exact absurd rfl h
  | cons m rest => simp [dedupMatches, dedupGo]

lemma dLoop_roundRobin_start (fuel limit : Nat) (gs : List (Nat × List MatchC))
    (hne : gs ≠ [])
    (hfuel : groupSum gs * gs.length + gs.length ≤ fuel)
    (hpos : 0 < groupSum gs) :
    dLoop fuel limit (groupSum gs) gs 0 [] =
      List.take limit (roundRobin (gs.map fun p => p.2)) := by
  cases gs with
  | nil => exact absurd rfl hne
  | cons g0 gs2 =>
    obtain ⟨d0, l0⟩ := g0
    have h1 : 0 % (([] : List (Nat × List MatchC)) ++ (d0, l0) :: gs2).length =
        ([] : List (Nat × List MatchC)).length := by
      simp
    have h2 : ([] : List MatchC).length + groupSum
        (([] : List (Nat × List MatchC)) ++ (d0, l0) :: gs2) =
        groupSum ((d0, l0) :: gs2) := by
      simp
    have hflag : ((d0, l0) :: gs2).all (fun p => p.2.isEmpty) = false := by
      by_cases hx : ((d0, l0) :: gs2).all (fun p => p.2.isEmpty) = true
      · exfalso
        have := (all_isEmpty_iff _).1 hx
        omega
      · simpa using hx
    have h3 : groupSum (([] : List (Nat × List MatchC)) ++ (d0, l0) :: gs2) *
        (([] : List (Nat × List MatchC)) ++ (d0, l0) :: gs2).length +
        ((([] : List (Nat × List MatchC)) ++ (d0, l0) :: gs2).length -
          ([] : List (Nat × List MatchC)).length) +
        (if ((d0, l0) :: gs2).all (fun p => p.2.isEmpty) then
          (([] : List (Nat × List MatchC)) ++ (d0, l0) :: gs2).length
        else 0) ≤ fuel := by
      simp only [List.nil_append, List.length_nil, hflag, Bool.false_eq_true,
        if_false]
      omega
    have hIH := dLoop_midEmit fuel limit (groupSum ((d0, l0) :: gs2)) [] d0 l0 gs2
      0 [] h1 h2 h3
    simp only [List.nil_append] at hIH
    rw [hIH, midEmit_zero]
    simp

lemma distributeMatches_eq_take_roundRobin (ms : List MatchC) (limit : Nat) :
    distributeMatches ms limit =
      if ms.length ≤ limit then ms
      else
        List.take limit (roundRobin
          ((List.insertionSort (· ≤ ·)
              (((dedupMatches ms).map (fun m => m.dayOfWeek)).dedup)).map
            (fun d => (dedupMatches ms).filter (fun m => m.dayOfWeek = d)))) := by
  by_cases hle : ms.length ≤ limit
  · rw [distributeMatches, if_pos hle, if_pos hle]
  · simp only [distributeMatches]
    rw [if_neg hle, if_neg hle]
    have hms : ms ≠ [] := by
      intro h
      subst h
      simp at hle
    have huniqne : dedupMatches ms ≠ [] := dedupMatches_ne_nil ms hms
    have hupos : 0 < (dedupMatches ms).length := List.length_pos.2 huniqne
    have hnd : (List.insertionSort (· ≤ ·)
        (((dedupMatches ms).map (fun m => m.dayOfWeek)).dedup)).Nodup :=
      (List.perm_insertionSort _ _).nodup_iff.2 (List.nodup_dedup _)
    have hcover : ∀ m ∈ dedupMatches ms, m.dayOfWeek ∈
        List.insertionSort (· ≤ ·)
          (((dedupMatches ms).map (fun m => m.dayOfWeek)).dedup) := by
      intro m hm
      rw [(List.perm_insertionSort _ _).mem_iff, List.mem_dedup]
      exact List.mem_map_of_mem _ hm
    have hsum : groupSum ((List.insertionSort (· ≤ ·)
        (((dedupMatches ms).map (fun m => m.dayOfWeek)).dedup)).map
        (fun d => (d, (dedupMatches ms).filter (fun m => m.dayOfWeek = d)))) =
        (dedupMatches ms).length :=
      partition_sum _ _ hnd hcover
    have hgne : ((List.insertionSort (· ≤ ·)
        (((dedupMatches ms).map (fun m => m.dayOfWeek)).dedup)).map
        (fun d => (d, (dedupMatches ms).filter (fun m => m.dayOfWeek = d)))) ≠ [] := by
      intro h
      rw [List.map_eq_nil_iff] at h
      have hlen := (List.perm_insertionSort (· ≤ ·)
        (((dedupMatches ms).map (fun m => m.dayOfWeek)).dedup)).length_eq
      rw [h] at hlen
      simp at hlen
      have h2 : (dedupMatches ms).map (fun m => m.dayOfWeek) = [] := by
        rw [← List.dedup_eq_nil]
        exact List.length_eq_zero.1 hlen.symm
      rw [List.map_eq_nil_iff] at h2
      exact huniqne h2
    rw [← hsum]
    have hlenmap : ((List.insertionSort (· ≤ ·)
        (((dedupMatches ms).map (fun m => m.dayOfWeek)).dedup)).map
        (fun d => (d, (dedupMatches ms).filter (fun m => m.dayOfWeek = d)))).length =
        (List.insertionSort (· ≤ ·)
          (((dedupMatches ms).map (fun m => m.dayOfWeek)).dedup)).length := by
      simp
    rw [dLoop_roundRobin_start _ _ _ hgne (by rw [hsum, hlenmap]; omega)
      (by rw [hsum]; omega)]
    congr 1
    rw [List.map_map]
    rfl

lemma daysSorted_nodup (ms : List MatchC) :
    (List.insertionSort (· ≤ ·)
      (((dedupMatches ms).map (fun m => m.dayOfWeek)).dedup)).Nodup :=
  (List.perm_insertionSort _ _).nodup_iff.2 (List.nodup_dedup _)

lemma daysSorted_cover (ms : List MatchC) :
    ∀ m ∈ dedupMatches ms, m.dayOfWeek ∈
      List.insertionSort (· ≤ ·)
        (((dedupMatches ms).map (fun m => m.dayOfWeek)).dedup) := by
  intro m hm
  rw [(List.perm_insertionSort _ _).mem_iff, List.mem_dedup]
  exact List.mem_map_of_mem _ hm

lemma roundRobin_groups_length (ms : List MatchC) :
    (roundRobin ((List.insertionSort (· ≤ ·)
        (((dedupMatches ms).map (fun m => m.dayOfWeek)).dedup)).map
      (fun d => (dedupMatches ms).filter (fun m => m.dayOfWeek = d)))).length =
    (dedupMatches ms).length := by
  rw [roundRobin_length]
  have hb : (((List.insertionSort (· ≤ ·)
      (((dedupMatches ms).map (fun m => m.dayOfWeek)).dedup)).map
      (fun d => (dedupMatches ms).filter (fun m => m.dayOfWeek = d))).map
      List.length).sum =
      groupSum ((List.insertionSort (· ≤ ·)
        (((dedupMatches ms).map (fun m => m.dayOfWeek)).dedup)).map
        (fun d => (d, (dedupMatches ms).filter (fun m => m.dayOfWeek = d)))) := by
    simp [groupSum, List.map_map]
    rfl
  rw [hb]
  exact partition_sum _ _ (daysSorted_nodup ms) (daysSorted_cover ms)

/-- C4 amended: for lists above the limit, distributeMatches equals the
round-robin over the deduplicated candidates grouped by day, with the day
groups cycled in ascending numeric dayOfWeek order (JavaScript enumerates
the numeric keys of the dayGroups object in ascending order, not in
insertion order), one candidate per day per pass, truncated at the
limit. -/
theorem distributeMatches_ascending_day_order (ms : List MatchC) (limit : Nat) :
    distributeMatches ms limit =
      if ms.length ≤ limit then ms
      else
        List.take limit (roundRobin
          ((List.insertionSort (· ≤ ·)
              (((dedupMatches ms).map (fun m => m.dayOfWeek)).dedup)).map
            (fun d => (dedupMatches ms).filter (fun m => m.dayOfWeek = d)))) :=
  distributeMatches_eq_take_roundRobin ms limit

/-- C4 counterexample: on a list whose day groups are first seen in the
order 3 then 1, distributeMatches differs from the reducer described by
the specification sentence, which cycles day groups in insertion
(first-seen) order. -/
theorem distributeMatches_not_insertionOrder :
    distributeMatches cexDay31 5 ≠ specInsertionOrderReducer cexDay31 5 := by
  decide

/-- C3: distributeMatches with limit 5 always returns at most five
candidates, and returns exactly five whenever the deduplicated candidates
span more than five distinct days. -/
theorem distributeMatches_limit_five (ms : List MatchC) :
    (distributeMatches ms 5).length ≤ 5 ∧
    (5 < (((dedupMatches ms).map (fun m => m.dayOfWeek)).dedup).length →
      (distributeMatches ms 5).length = 5) := by
  have heq := distributeMatches_eq_take_roundRobin ms 5
  constructor
  · rw [heq]
    by_cases hle : ms.length ≤ 5
    · rw [if_pos hle]
      exact hle
    · rw [if_neg hle]
      simp [List.length_take]
  · intro hdays
    have hcount : (((dedupMatches ms).map (fun m => m.dayOfWeek)).dedup).length ≤
        ms.length := by
      have h1 : (((dedupMatches ms).map (fun m => m.dayOfWeek)).dedup).length ≤
          ((dedupMatches ms).map (fun m => m.dayOfWeek)).length :=
        (List.dedup_sublist _).length_le
      have h2 : ((dedupMatches ms).map (fun m => m.dayOfWeek)).length =
          (dedupMatches ms).length := by
        simp
      have h3 : (dedupMatches ms).length ≤ ms.length :=
        (dedupGo_sublist [] ms).length_le
      omega
    have hle : ¬ ms.length ≤ 5 := by omega
    rw [heq, if_neg hle, List.length_take, roundRobin_groups_length]
    have h4 : (((dedupMatches ms).map (fun m => m.dayOfWeek)).dedup).length ≤
        (dedupMatches ms).length := by
      have h1 : (((dedupMatches ms).map (fun m => m.dayOfWeek)).dedup).length ≤
          ((dedupMatches ms).map (fun m => m.dayOfWeek)).length :=
        (List.dedup_sublist _).length_le
      simpa using h1
    omega

theorem distributeMatches_limit_five_witness :
    (distributeMatches sixDayMatches 5).length ≤ 5 ∧
    (distributeMatches sixDayMatches 5).length = 5 :=
  ⟨(distributeMatches_limit_five sixDayMatches).1,
   (distributeMatches_limit_five sixDayMatches).2 (by decide)⟩
